import Mathlib

/-!
Shallow embedding of the wallet core (account model, input selection,
event bus, monitor) of the `wallet.rs` repository, together with proofs
of the specified properties.

Conventions of the embedding:
* Rust `u64` balances and targets are modelled as `Nat` (IOTA balances are
  far below `2^64`, and Rust's checked arithmetic panics on overflow rather
  than wrapping in the configuration the spec describes).
* Rust `i128` (the trial budget of the branch-and-bound search) is
  modelled as `Int`; the value only ever decreases by one per recursion
  level, so no overflow is reachable.
* The random shuffle of `single_random_draw` is modelled by passing the
  shuffled list explicitly; theorems quantify over every permutation.
* `&mut` slices are modelled by returning the final state of the list next
  to the function result.
* Opaque foreign values (Ed25519 addresses, message ids, client options)
  are modelled as `Nat`: the code only ever compares them for equality.
-/

/-- The wallet error type (the variants relevant to the verified core). -/
inductive WalletError where
  | InsufficientFunds
  | LatestAccountIsEmpty
  | UnknownError (msg : String)
deriving DecidableEq, Repr

/-- An on-chain address value (`IotaAddress`): opaque, equality-only. -/
abbrev IotaAddress : Type := Nat

/-- One spendable output considered by the input selection engine
(`Input` in `account/sync/input_selection.rs`): an address plus its
contribution amount. -/
structure Input where
  address : IotaAddress
  balance : Nat
deriving DecidableEq, Repr

/-- The running sum `iter().fold(0, |acc, address| acc + address.balance)`
used by `select_input`. -/
def inputSum (l : List Input) : Nat :=
  l.foldl (fun acc i => acc + i.balance) 0

/-- Stable insertion of one element into a descending-by-balance list,
placing the element before the first strictly smaller entry. -/
def insertDesc (x : Input) : List Input → List Input
  | [] => [x]
  | y :: ys => if y.balance ≤ x.balance then x :: y :: ys else y :: insertDesc x ys

/-- The stable descending sort
`available_utxos.sort_by(|a, b| b.balance.cmp(&a.balance))`: Rust's sort
is stable, so it coincides with stable insertion sort as a function. -/
def sortDesc : List Input → List Input
  | [] => []
  | x :: xs => insertDesc x (sortDesc xs)

/-- The branch-and-bound search of `input_selection.rs`. The Rust code
walks `available_utxos` by an index `depth`; the embedding passes the
remaining suffix `available_utxos[depth..]` instead, which is the only
part the function reads. The result is the returned `bool`, the final
state of the `current_selection` vector, and the number of invocations of
`branch_and_bound` performed (the instrumentation used to settle the
budget claim). `tries` is passed by value, exactly as in the Rust source:
each recursive call receives its own copy, decremented once. -/
def branch_and_bound (target : Nat) (remaining : List Input)
    (current_selection : List Input) (effective_value : Nat) (tries : Int) :
    Bool × List Input × Nat :=
  if target < effective_value then (false, current_selection, 1)
  else if effective_value = target then (true, current_selection, 1)
  else if tries ≤ 0 then (false, current_selection, 1)
  else
    match remaining with
    | [] => (false, current_selection, 1)
    | x :: rest =>
      let t := tries - 1
      match branch_and_bound target rest (current_selection ++ [x])
          (effective_value + x.balance) t with
      | (true, sel, c) => (true, sel, 1 + c)
      | (false, sel, c) =>
        let r := branch_and_bound target rest sel.dropLast effective_value t
        (r.fst, r.snd.fst, 1 + c + r.snd.snd)

/-- The take-while accumulation of `single_random_draw`: include elements
while the running sum before the current element is still below the
target. -/
def single_random_draw_go (target : Nat) (sum : Nat) : List Input → List Input
  | [] => []
  | x :: xs =>
    if sum < target then x :: single_random_draw_go target (sum + x.balance) xs
    else []

/-- `single_random_draw` after the shuffle: the shuffled list is passed in
explicitly (the Rust code shuffles in place with `thread_rng`). -/
def single_random_draw (target : Nat) (shuffled : List Input) : List Input :=
  single_random_draw_go target 0 shuffled

/-- The initial trial budget of `select_input`:
`2i128.checked_pow(len).unwrap_or(i128::MAX)`, i.e. `min(2^N, 2^127 - 1)`. -/
def select_input_tries (available_utxos : List Input) : Int :=
  ((min (2 ^ available_utxos.length) (2 ^ 127 - 1) : Nat) : Int)

/-- The input selection entry point (`select_input` in
`input_selection.rs`). Besides the `Result`, the embedding returns the
final state of the mutable `available_utxos` slice (untouched on the
insufficient-funds path, sorted when branch-and-bound succeeds, shuffled
on the random-draw path). `shuffled` is the outcome of the random shuffle,
quantified over in the theorems. -/
def select_input (target : Nat) (available_utxos : List Input)
    (shuffled : List Input) : Except WalletError (List Input) × List Input :=
  if inputSum available_utxos < target then
    (.error .InsufficientFunds, available_utxos)
  else
    let sorted := sortDesc available_utxos
    let r := branch_and_bound target sorted [] 0 (select_input_tries available_utxos)
    if r.fst then (.ok r.snd.fst, sorted)
    else (.ok (single_random_draw target shuffled), shuffled)

/-- The number of invocations of `branch_and_bound` performed by
`select_input`: zero when the insufficient-funds guard returns before the
search starts, otherwise the initial call plus all recursive calls. -/
def select_input_call_count (target : Nat) (available_utxos : List Input) : Nat :=
  if inputSum available_utxos < target then 0
  else
    (branch_and_bound target (sortDesc available_utxos) [] 0
      (select_input_tries available_utxos)).snd.snd

/-- The signing backend selector (`SignerType` in the signing module; the
source file under `src/` references the `Stronghold` and `EnvMnemonic`
variants). -/
inductive SignerType where
  | Stronghold
  | EnvMnemonic
deriving DecidableEq, Repr

/-- The account identifier (`AccountIdentifier` in `account/mod.rs`): a
string record id or a positional index. -/
inductive AccountIdentifier where
  | Id (s : String)
  | Index (i : Nat)
deriving DecidableEq, Repr

/-- A derived address of an account (`Address` in `address.rs`). -/
structure Address where
  address : IotaAddress
  balance : Nat
  key_index : Nat
  checksum : String
deriving DecidableEq, Repr

/-- The `PartialEq` implementation of `Address`: equality is defined only
by `key_index`. -/
def addressEq (a b : Address) : Bool :=
  a.key_index == b.key_index

/-- Modelled from the spec: the `Message` type lives in `message.rs`,
which is not among the provided sources; spec section 6 lists its
observable fields (`id`, `payload`, `value`, `incoming`, `broadcasted`,
`confirmed: Option<bool>`, `address`). The `value` is an integer amount;
`value().without_denomination()` reads that integer, and the associated
`address` is the message's target address record. Opaque `id` and
`payload` are compared only for equality. -/
structure Message where
  id : Nat
  payload : Nat
  value : Int
  incoming : Bool
  broadcasted : Bool
  confirmed : Option Bool
  address : Address
deriving DecidableEq, Repr

instance : Inhabited Message := ⟨⟨0, 0, 0, false, false, none, ⟨0, 0, 0, ""⟩⟩⟩

/-- Modelled from the spec: the message-type filter of `list_messages`
(spec section 4.1: received, sent, failed, unconfirmed, value). -/
inductive MessageType where
  | Received
  | Sent
  | Failed
  | Unconfirmed
  | Value
deriving DecidableEq, Repr

/-- One wallet account (`Account` in `account/mod.rs`). `client_options`
and `storage_path` are opaque to the verified core. -/
structure Account where
  id : AccountIdentifier
  signer_type : SignerType
  index : Nat
  «alias» : String
  created_at : Nat
  messages : List Message
  addresses : List Address
  client_options : Nat
  storage_path : Nat
  has_pending_changes : Bool
deriving DecidableEq, Repr

/-- `Account::total_balance`: fold of the address balances. -/
def total_balance (account : Account) : Nat :=
  account.addresses.foldl (fun acc address => acc + address.balance) 0

/-- `is_unspent` from `address.rs`: returns whether any message of the
account has a negative (without denomination) value and targets the given
address. Note that despite its name this is a test for the EXISTENCE of a
spending message. -/
def is_unspent (account : Account) (address : IotaAddress) : Bool :=
  account.messages.any fun message =>
    decide (message.value < 0) && (message.address.address == address)

/-- `Account::list_addresses`: keeps the addresses whose `is_unspent`
value equals the requested flag. -/
def list_addresses (account : Account) (unspent : Bool) : List Address :=
  account.addresses.filter fun address => is_unspent account address.address == unspent

/-- The per-message filter of `list_messages` (the `should_push`
computation). -/
def should_push (message : Message) : Option MessageType → Bool
  | none => true
  | some .Received => message.incoming
  | some .Sent => !message.incoming
  | some .Failed => !message.broadcasted
  | some .Unconfirmed => !(message.confirmed.getD false)
  | some .Value => decide (0 < message.value)

/-- The reattachment-collapsing accumulation loop of
`Account::list_messages`: `acc` is the `messages` vector being built; a
later message sharing `payload` with an already selected one either gets
dropped (original confirmed) or evicts the original. -/
def list_messages_loop (message_type : Option MessageType)
    (acc : List Message) : List Message → List Message
  | [] => acc
  | message :: rest =>
    match acc.findIdx? (fun m => m.payload == message.payload) with
    | some original_message_index =>
      let original_message := acc.getD original_message_index default
      if original_message.confirmed.getD false then
        list_messages_loop message_type acc rest
      else
        let acc := acc.eraseIdx original_message_index
        list_messages_loop message_type
          (if should_push message message_type then acc ++ [message] else acc) rest
    | none =>
      list_messages_loop message_type
        (if should_push message message_type then acc ++ [message] else acc) rest

/-- `Account::list_messages`: collapse reattachments, filter, skip `from`,
take `count` (`count = 0` means unbounded). -/
def list_messages (account : Account) (count fromIndex : Nat)
    (message_type : Option MessageType) : List Message :=
  let messages := list_messages_loop message_type [] account.messages
  let messages := messages.drop fromIndex
  if count = 0 then messages else messages.take count

/-- One step of `Account::append_addresses`: upsert a single address into
the collection, keyed by the `PartialEq` of `Address` (`key_index`). -/
def append_one (addresses : List Address) (address : Address) : List Address :=
  match addresses.findIdx? (fun a => addressEq a address) with
  | some index => addresses.set index address
  | none => addresses ++ [address]

/-- `Account::append_addresses`: upsert every incoming address in order. -/
def append_addresses (account : Account) (incoming : List Address) : Account :=
  { account with addresses := incoming.foldl append_one account.addresses }

/-- The observable outcome of `monitor_confirmation_state_change` in
`monitor.rs`: the function looks the message up with
`find(...).unwrap()` and then subscribes to the message's metadata topic.
On a lookup miss the `unwrap` aborts the thread; the external
subscription call itself is modelled as succeeding (its failures are
transport errors, orthogonal to the lookup behaviour). -/
inductive MonitorOutcome where
  | panicked
  | subscribed (message : Message)
deriving DecidableEq, Repr

/-- `monitor_confirmation_state_change` (`monitor.rs`): find the message
with the given id in the account history (`unwrap`: a miss aborts), then
register the metadata-topic subscription for it. -/
def monitor_confirmation_state_change (account : Account) (message_id : Nat) :
    MonitorOutcome :=
  match account.messages.find? (fun message => message.id == message_id) with
  | none => .panicked
  | some message => .subscribed message

/-- The transaction event kinds of `event.rs`. -/
inductive TransactionEventType where
  | NewTransaction
  | Reattachment
  | Broadcast
deriving DecidableEq, Repr

/-- The payload handed to a transaction listener (`TransactionEvent` in
`event.rs`). -/
structure TransactionEvent where
  account_id : Nat
  message_id : Nat
deriving DecidableEq, Repr

/-- A registered transaction listener (`TransactionEventHandler`): the
registered kind plus an opaque identity for the boxed callback. -/
structure TransactionEventHandler where
  event_type : TransactionEventType
  callback : Nat
deriving DecidableEq, Repr

/-- `add_transaction_listener` (`event.rs`): push the handler at the end
of the process-wide registry. -/
def add_transaction_listener (event_type : TransactionEventType) (callback : Nat)
    (listeners : List TransactionEventHandler) : List TransactionEventHandler :=
  listeners ++ [⟨event_type, callback⟩]

/-- `emit_transaction_event` (`event.rs`): walk the registry in order and
invoke the callbacks whose registered kind equals the emitted kind. The
result is the trace of invocations (callback identity and the event value
passed to it), in invocation order. -/
def emit_transaction_event (event_type : TransactionEventType)
    (account_id message_id : Nat) (listeners : List TransactionEventHandler) :
    List (Nat × TransactionEvent) :=
  listeners.foldl
    (fun invoked listener =>
      if listener.event_type = event_type then
        invoked ++ [(listener.callback, ⟨account_id, message_id⟩)]
      else invoked)
    []

/-- The account initialiser (`AccountInitialiser` in `account/mod.rs`);
`storage_path` is opaque and omitted. -/
structure AccountInitialiser where
  mnemonic : Option String
  «alias» : Option String
  created_at : Option Nat
  messages : List Message
  addresses : List Address
  client_options : Nat
  skip_persistance : Bool
  signer_type : Option SignerType
deriving Repr

/-- `AccountInitialiser::initialise`. The storage adapter is modelled by
passing the stored account list in and returning the final stored list
next to the result (`get_all` is read at entry; `save` appends the new
record); deserialization of stored records is the identity in the model.
The signer is the `init_account` parameter (it returns the new record id
or fails), and `now` stands for `Utc::now()`. Mnemonic auto-generation
from the process environment is not modelled: it only affects the phrase
handed to the signer. -/
def initialise (stored : List Account)
    (init_account : Account → Option String → Except WalletError String)
    (now : Nat) (self : AccountInitialiser) :
    Except WalletError Account × List Account :=
  let accountAlias := self.«alias».getD ("Account " ++ toString stored.length)
  match self.signer_type with
  | none => (.error (.UnknownError "account signer type is required"), stored)
  | some signer_type =>
    let created_at := self.created_at.getD now
    let latest_is_empty :=
      !self.skip_persistance &&
        (match stored.getLast? with
         | some latest_account =>
           latest_account.messages.isEmpty && (total_balance latest_account == 0)
         | none => false)
    if latest_is_empty then (.error .LatestAccountIsEmpty, stored)
    else
      let account : Account :=
        { id := .Index stored.length
          signer_type := signer_type
          index := stored.length
          «alias» := accountAlias
          created_at := created_at
          messages := self.messages
          addresses := self.addresses
          client_options := self.client_options
          storage_path := 0
          has_pending_changes := false }
      match init_account account self.mnemonic with
      | .error e => (.error e, stored)
      | .ok new_id =>
        let account := { account with id := .Id new_id }
        if self.skip_persistance then (.ok account, stored)
        else (.ok account, stored ++ [account])

example : select_input 3 [⟨0, 5⟩] [⟨0, 5⟩] = (.ok [⟨0, 5⟩], [⟨0, 5⟩]) := rfl

example : select_input 5 [⟨0, 2⟩, ⟨1, 3⟩] [] = (.ok [⟨1, 3⟩, ⟨0, 2⟩], [⟨1, 3⟩, ⟨0, 2⟩]) := rfl

example : select_input 6 [⟨0, 2⟩, ⟨1, 3⟩] [] = (.error .InsufficientFunds, [⟨0, 2⟩, ⟨1, 3⟩]) := rfl

example : select_input_call_count 5 [⟨0, 3⟩, ⟨1, 3⟩] = 7 := by decide

example : select_input_call_count 7 [⟨0, 3⟩, ⟨1, 3⟩] = 0 := by decide

/-! Helper lemmas about sums, the sort, and the search. -/

theorem inputSum_foldl (a : Nat) (l : List Input) :
    l.foldl (fun acc i => acc + i.balance) a = a + (l.map Input.balance).sum := by
  induction l generalizing a with
  | nil => simp
  | cons x xs ih => simp [List.foldl_cons, ih]; ring

theorem inputSum_eq_sum_map (l : List Input) :
    inputSum l = (l.map Input.balance).sum := by
  simpa using inputSum_foldl 0 l

theorem inputSum_cons (x : Input) (l : List Input) :
    inputSum (x :: l) = x.balance + inputSum l := by
  simp [inputSum_eq_sum_map]

theorem inputSum_perm {l l' : List Input} (h : List.Perm l l') :
    inputSum l = inputSum l' := by
  simp only [inputSum_eq_sum_map]
  exact (h.map Input.balance).sum_eq

theorem inputSum_sublist_le {l l' : List Input} (h : List.Sublist l l') :
    inputSum l ≤ inputSum l' := by
  induction h with
  | slnil => simp
  | cons x _ ih => rename_i l₁ l₂ _
                   calc inputSum l₁ ≤ inputSum l₂ := ih
                     _ ≤ inputSum (x :: l₂) := by simp [inputSum_cons]
  | cons₂ x _ ih => simp only [inputSum_cons]; omega

theorem inputSum_subperm_le {l l' : List Input} (h : List.Subperm l l') :
    inputSum l ≤ inputSum l' := by
  obtain ⟨t, hperm, hsub⟩ := h
  calc inputSum l = inputSum t := (inputSum_perm hperm).symm
    _ ≤ inputSum l' := inputSum_sublist_le hsub

theorem insertDesc_perm (x : Input) (l : List Input) :
    List.Perm (insertDesc x l) (x :: l) := by
  induction l with
  | nil => simp [insertDesc]
  | cons y ys ih =>
    simp only [insertDesc]
    split
    · exact List.Perm.refl _
    · exact (ih.cons y).trans (List.Perm.swap x y ys)

theorem sortDesc_perm (l : List Input) : List.Perm (sortDesc l) l := by
  induction l with
  | nil => simp [sortDesc]
  | cons x xs ih => exact (insertDesc_perm x (sortDesc xs)).trans (ih.cons x)

theorem sortDesc_length (l : List Input) : (sortDesc l).length = l.length :=
  (sortDesc_perm l).length_eq

theorem sortDesc_inputSum (l : List Input) : inputSum (sortDesc l) = inputSum l :=
  inputSum_perm (sortDesc_perm l)

/-! Reduction equations for `branch_and_bound`, one per branch of its
body, used to drive the inductions below. -/

theorem branch_and_bound_overshoot {target eff : Nat} (h1 : target < eff)
    (remaining sel : List Input) (tries : Int) :
    branch_and_bound target remaining sel eff tries = (false, sel, 1) := by
  unfold branch_and_bound
  rw [if_pos h1]

theorem branch_and_bound_exact {target eff : Nat} (h1 : ¬target < eff)
    (h2 : eff = target) (remaining sel : List Input) (tries : Int) :
    branch_and_bound target remaining sel eff tries = (true, sel, 1) := by
  unfold branch_and_bound
  rw [if_neg h1, if_pos h2]

theorem branch_and_bound_budget {target eff : Nat} {tries : Int}
    (h1 : ¬target < eff) (h2 : ¬eff = target) (h3 : tries ≤ 0)
    (remaining sel : List Input) :
    branch_and_bound target remaining sel eff tries = (false, sel, 1) := by
  unfold branch_and_bound
  rw [if_neg h1, if_neg h2, if_pos h3]

theorem branch_and_bound_nil {target eff : Nat} {tries : Int}
    (h1 : ¬target < eff) (h2 : ¬eff = target) (h3 : ¬tries ≤ 0)
    (sel : List Input) :
    branch_and_bound target [] sel eff tries = (false, sel, 1) := by
  unfold branch_and_bound
  rw [if_neg h1, if_neg h2, if_neg h3]

theorem branch_and_bound_cons {target eff : Nat} {tries : Int}
    (h1 : ¬target < eff) (h2 : ¬eff = target) (h3 : ¬tries ≤ 0)
    (x : Input) (rest sel : List Input) :
    branch_and_bound target (x :: rest) sel eff tries =
      match branch_and_bound target rest (sel ++ [x]) (eff + x.balance) (tries - 1) with
      | (true, sel1, c) => (true, sel1, 1 + c)
      | (false, sel1, c) =>
        let r := branch_and_bound target rest sel1.dropLast eff (tries - 1)
        (r.fst, r.snd.fst, 1 + c + r.snd.snd) := by
  conv_lhs => unfold branch_and_bound
  rw [if_neg h1, if_neg h2, if_neg h3]

/-- A failing `branch_and_bound` call leaves the selection vector exactly
as it found it (every push is matched by a pop). -/
theorem branch_and_bound_frame (target : Nat) :
    ∀ (remaining sel : List Input) (eff : Nat) (tries : Int),
      (branch_and_bound target remaining sel eff tries).fst = false →
      (branch_and_bound target remaining sel eff tries).snd.fst = sel := by
  intro remaining
  induction remaining with
  | nil =>
    intro sel eff tries _
    by_cases h1 : target < eff
    · rw [branch_and_bound_overshoot h1]
    · by_cases h2 : eff = target
      · rw [branch_and_bound_exact h1 h2]
      · by_cases h3 : tries ≤ 0
        · rw [branch_and_bound_budget h1 h2 h3]
        · rw [branch_and_bound_nil h1 h2 h3]
  | cons x rest ih =>
    intro sel eff tries hfalse
    by_cases h1 : target < eff
    · rw [branch_and_bound_overshoot h1]
    · by_cases h2 : eff = target
      · rw [branch_and_bound_exact h1 h2] at hfalse
        simp at hfalse
      · by_cases h3 : tries ≤ 0
        · rw [branch_and_bound_budget h1 h2 h3]
        · rw [branch_and_bound_cons h1 h2 h3] at hfalse ⊢
          rcases hrec : branch_and_bound target rest (sel ++ [x]) (eff + x.balance)
              (tries - 1) with ⟨b1, sel1, c1⟩
          rw [hrec] at hfalse
          cases b1 with
          | true => simp at hfalse
          | false =>
            have hsel1 : sel1 = sel ++ [x] := by
              have h := ih (sel ++ [x]) (eff + x.balance) (tries - 1)
              rw [hrec] at h
              exact h rfl
            simp only [] at hfalse ⊢
            simp only [hsel1, List.dropLast_concat] at hfalse ⊢
            exact ih sel eff (tries - 1) hfalse

/-- Soundness of the search: a successful call extends the incoming
selection by a sub-list of the remaining candidates whose balances close
the gap to the target exactly. -/
theorem branch_and_bound_sound (target : Nat) :
    ∀ (remaining sel : List Input) (eff : Nat) (tries : Int),
      (branch_and_bound target remaining sel eff tries).fst = true →
      ∃ s, s.Sublist remaining ∧
        (branch_and_bound target remaining sel eff tries).snd.fst = sel ++ s ∧
        eff + inputSum s = target := by
  intro remaining
  induction remaining with
  | nil =>
    intro sel eff tries htrue
    by_cases h1 : target < eff
    · rw [branch_and_bound_overshoot h1] at htrue
      simp at htrue
    · by_cases h2 : eff = target
      · rw [branch_and_bound_exact h1 h2]
        exact ⟨[], List.Sublist.refl _, by simp,
          by rw [show inputSum [] = 0 from rfl]; omega⟩
      · by_cases h3 : tries ≤ 0
        · rw [branch_and_bound_budget h1 h2 h3] at htrue
          simp at htrue
        · rw [branch_and_bound_nil h1 h2 h3] at htrue
          simp at htrue
  | cons x rest ih =>
    intro sel eff tries htrue
    by_cases h1 : target < eff
    · rw [branch_and_bound_overshoot h1] at htrue
      simp at htrue
    · by_cases h2 : eff = target
      · rw [branch_and_bound_exact h1 h2]
        exact ⟨[], List.nil_sublist _, by simp,
          by rw [show inputSum [] = 0 from rfl]; omega⟩
      · by_cases h3 : tries ≤ 0
        · rw [branch_and_bound_budget h1 h2 h3] at htrue
          simp at htrue
        · rw [branch_and_bound_cons h1 h2 h3] at htrue ⊢
          rcases hrec : branch_and_bound target rest (sel ++ [x]) (eff + x.balance)
              (tries - 1) with ⟨b1, sel1, c1⟩
          rw [hrec] at htrue
          cases b1 with
          | true =>
            have h := ih (sel ++ [x]) (eff + x.balance) (tries - 1)
            rw [hrec] at h
            obtain ⟨s1, hsub, hout, hsum⟩ := h rfl
            refine ⟨x :: s1, List.Sublist.cons₂ x hsub, ?_, ?_⟩
            · simp only [] at hout ⊢
              simpa [List.append_assoc] using hout
            · rw [inputSum_cons]
              omega
          | false =>
            have hsel1 : sel1 = sel ++ [x] := by
              have h := branch_and_bound_frame target rest (sel ++ [x])
                  (eff + x.balance) (tries - 1)
              rw [hrec] at h
              exact h rfl
            simp only [] at htrue ⊢
            simp only [hsel1, List.dropLast_concat] at htrue ⊢
            obtain ⟨s, hsub, hout, hsum⟩ := ih sel eff (tries - 1) htrue
            exact ⟨s, List.Sublist.cons x hsub, hout, hsum⟩

/-- Completeness of the search: when the budget is at least the number of
remaining candidates it never bites (it is copied down each path and only
decremented once per level), so any exact-sum sub-list of the remaining
candidates is found. -/
theorem branch_and_bound_complete (target : Nat) :
    ∀ (remaining s sel : List Input) (eff : Nat) (tries : Int),
      s.Sublist remaining → eff + inputSum s = target →
      (remaining.length : Int) ≤ tries →
      (branch_and_bound target remaining sel eff tries).fst = true := by
  intro remaining
  induction remaining with
  | nil =>
    intro s sel eff tries hsub hsum htries
    have hs : s = [] := List.sublist_nil.mp hsub
    subst hs
    rw [show inputSum [] = 0 from rfl] at hsum
    have h2 : eff = target := by omega
    rw [branch_and_bound_exact (by omega) h2]
  | cons x rest ih =>
    intro s sel eff tries hsub hsum htries
    by_cases h2 : eff = target
    · rw [branch_and_bound_exact (by omega) h2]
    · have h1 : ¬target < eff := by omega
      have h3 : ¬tries ≤ 0 := by
        simp only [List.length_cons] at htries
        omega
      have htries' : (rest.length : Int) ≤ tries - 1 := by
        simp only [List.length_cons] at htries
        omega
      rw [branch_and_bound_cons h1 h2 h3]
      cases hsub with
      | cons a hsub' =>
        rcases hrec : branch_and_bound target rest (sel ++ [x]) (eff + x.balance)
            (tries - 1) with ⟨b1, sel1, c1⟩
        cases b1 with
        | true => rfl
        | false =>
          have hsel1 : sel1 = sel ++ [x] := by
            have h := branch_and_bound_frame target rest (sel ++ [x])
                (eff + x.balance) (tries - 1)
            rw [hrec] at h
            exact h rfl
          simp only [hsel1, List.dropLast_concat]
          exact ih s sel eff (tries - 1) hsub' hsum htries'
      | cons₂ a hsub' =>
        rename_i s'
        rcases hrec : branch_and_bound target rest (sel ++ [x]) (eff + x.balance)
            (tries - 1) with ⟨b1, sel1, c1⟩
        cases b1 with
        | true => rfl
        | false =>
          have hinc : (branch_and_bound target rest (sel ++ [x]) (eff + x.balance)
              (tries - 1)).fst = true := by
            refine ih s' (sel ++ [x]) (eff + x.balance) (tries - 1) hsub' ?_ htries'
            rw [inputSum_cons] at hsum
            omega
          rw [hrec] at hinc
          simp at hinc

/-- The prefix taken by the random draw reaches the target whenever the
whole (shuffled) list does. -/
theorem single_random_draw_go_sum (target : Nat) :
    ∀ (l : List Input) (sum : Nat),
      target ≤ sum + inputSum l →
      target ≤ sum + inputSum (single_random_draw_go target sum l) := by
  intro l
  induction l with
  | nil =>
    intro sum h
    simpa [single_random_draw_go] using h
  | cons x xs ih =>
    intro sum h
    simp only [single_random_draw_go]
    split
    · rw [inputSum_cons]
      rw [inputSum_cons] at h
      have := ih (sum + x.balance) (by omega)
      omega
    · rw [show inputSum [] = 0 from rfl]
      omega

/-- The random draw returns a prefix of the shuffled candidates, hence a
sub-list of them. -/
theorem single_random_draw_go_sublist (target : Nat) :
    ∀ (l : List Input) (sum : Nat),
      (single_random_draw_go target sum l).Sublist l := by
  intro l
  induction l with
  | nil =>
    intro sum
    simp [single_random_draw_go]
  | cons x xs ih =>
    intro sum
    simp only [single_random_draw_go]
    split
    · exact List.Sublist.cons₂ x (ih (sum + x.balance))
    · exact List.nil_sublist _

/-- The initial budget covers the candidate count whenever the count fits
a `u32` (the Rust code converts the length to `u32` for `checked_pow`). -/
theorem length_le_select_input_tries (l : List Input) (h : l.length ≤ 2 ^ 32) :
    ((sortDesc l).length : Int) ≤ select_input_tries l := by
  rw [sortDesc_length]
  unfold select_input_tries
  have h1 : l.length ≤ min (2 ^ l.length) (2 ^ 127 - 1) := by
    refine le_min (Nat.le_of_lt (Nat.lt_two_pow _)) ?_
    calc l.length ≤ 2 ^ 32 := h
      _ ≤ 2 ^ 127 - 1 := by norm_num
  exact_mod_cast h1

/-- C1: for every candidate list and target, `select_input` fails with
`InsufficientFunds` if and only if the target exceeds the sum of all
candidate balances; whenever the target is at most that sum it succeeds
— for every outcome of the random shuffle — with a sub-collection of the
candidates whose balances sum to at least the target. -/
theorem select_input_insufficient_funds_iff (target : Nat)
    (available_utxos shuffled : List Input)
    (hshuffle : List.Perm shuffled available_utxos) :
    ((select_input target available_utxos shuffled).fst =
        .error .InsufficientFunds ↔ inputSum available_utxos < target)
    ∧ (target ≤ inputSum available_utxos →
        ∃ selected,
          (select_input target available_utxos shuffled).fst = .ok selected ∧
          target ≤ inputSum selected ∧ selected.Subperm available_utxos) := by
  constructor
  · constructor
    · intro h
      by_contra hle
      simp only [select_input] at h
      rw [if_neg hle] at h
      split at h <;> simp at h
    · intro hlt
      simp only [select_input]
      rw [if_pos hlt]
  · intro htarget
    have hins : ¬inputSum available_utxos < target := by omega
    simp only [select_input]
    rw [if_neg hins]
    rcases hr : branch_and_bound target (sortDesc available_utxos) [] 0
        (select_input_tries available_utxos) with ⟨b, selout, c⟩
    cases b with
    | true =>
      have hsound := branch_and_bound_sound target (sortDesc available_utxos) [] 0
          (select_input_tries available_utxos)
      rw [hr] at hsound
      obtain ⟨s, hsub, hout, hsum⟩ := hsound rfl
      have hsel : selout = s := by simpa using hout
      refine ⟨selout, by simp, ?_, ?_⟩
      · rw [hsel]
        omega
      · rw [hsel]
        exact hsub.subperm.trans (sortDesc_perm available_utxos).subperm
    | false =>
      refine ⟨single_random_draw target shuffled, by simp, ?_, ?_⟩
      · have hsum : inputSum shuffled = inputSum available_utxos :=
          inputSum_perm hshuffle
        have h := single_random_draw_go_sum target shuffled 0 (by omega)
        simpa [single_random_draw] using h
      · exact (single_random_draw_go_sublist target shuffled 0).subperm.trans
          hshuffle.subperm

/-- Witness for C1: with one candidate of balance 5 and target 3, the call
succeeds with a sub-collection summing to at least 3. -/
theorem select_input_insufficient_funds_iff_witness :
    ∃ selected,
      (select_input 3 [⟨0, 5⟩] [⟨0, 5⟩]).fst = .ok selected ∧
      3 ≤ inputSum selected ∧ selected.Subperm [⟨0, 5⟩] :=
  (select_input_insufficient_funds_iff 3 [⟨0, 5⟩] [⟨0, 5⟩]
    (List.Perm.refl _)).2 (by decide)

/-- C2: if some sub-collection of the candidates sums exactly to the
target (which, the budget never biting, is the same as the exact match
being discoverable within the trial budget), `select_input` returns a
selection summing exactly to the target: the branch-and-bound phase finds
it before the random-draw fallback. The length bound reflects the `u32`
conversion the Rust code applies to the candidate count. -/
theorem select_input_exact_match (target : Nat)
    (available_utxos shuffled : List Input)
    (hlen : available_utxos.length ≤ 2 ^ 32)
    (hexact : ∃ s, s.Subperm available_utxos ∧ inputSum s = target) :
    ∃ selected,
      (select_input target available_utxos shuffled).fst = .ok selected ∧
      inputSum selected = target := by
  obtain ⟨s, hsp, hsum⟩ := hexact
  have htarget : target ≤ inputSum available_utxos :=
    hsum ▸ inputSum_subperm_le hsp
  have hins : ¬inputSum available_utxos < target := by omega
  have hsp' : s.Subperm (sortDesc available_utxos) :=
    hsp.trans (sortDesc_perm available_utxos).symm.subperm
  obtain ⟨t, htperm, htsub⟩ := hsp'
  have htsum : inputSum t = target := (inputSum_perm htperm).trans hsum
  have hcomplete := branch_and_bound_complete target (sortDesc available_utxos) t []
      0 (select_input_tries available_utxos) htsub (by omega)
      (length_le_select_input_tries available_utxos hlen)
  simp only [select_input]
  rw [if_neg hins]
  rcases hr : branch_and_bound target (sortDesc available_utxos) [] 0
      (select_input_tries available_utxos) with ⟨b, selout, c⟩
  rw [hr] at hcomplete
  cases b with
  | false => simp at hcomplete
  | true =>
    have hsound := branch_and_bound_sound target (sortDesc available_utxos) [] 0
        (select_input_tries available_utxos)
    rw [hr] at hsound
    obtain ⟨s', hsub', hout', hsum'⟩ := hsound rfl
    have hsel : selout = s' := by simpa using hout'
    refine ⟨selout, by simp, ?_⟩
    rw [hsel]
    omega

/-- Witness for C2: candidates of balances 2 and 3 with target 3 yield a
selection summing to exactly 3. -/
theorem select_input_exact_match_witness :
    ∃ selected,
      (select_input 3 [⟨0, 2⟩, ⟨1, 3⟩] []).fst = .ok selected ∧
      inputSum selected = 3 :=
  select_input_exact_match 3 [⟨0, 2⟩, ⟨1, 3⟩] [] (by decide)
    ⟨[⟨1, 3⟩], ⟨[⟨1, 3⟩], List.Perm.refl _,
      List.Sublist.cons _ (List.Sublist.refl _)⟩, by decide⟩

/-- C9: `select_input` only reorders the candidate slice: whatever the
outcome (selection or `InsufficientFunds`), the final state of the slice
is a permutation of the original candidates — no element is inserted,
removed, or modified. -/
theorem select_input_preserves_candidates (target : Nat)
    (available_utxos shuffled : List Input)
    (hshuffle : List.Perm shuffled available_utxos) :
    List.Perm (select_input target available_utxos shuffled).snd
      available_utxos := by
  simp only [select_input]
  split
  · exact List.Perm.refl _
  · split
    · exact sortDesc_perm available_utxos
    · exact hshuffle

/-- Witness for C9: a concrete call leaves the candidate slice a
permutation of the original. -/
theorem select_input_preserves_candidates_witness :
    List.Perm (select_input 1 [⟨0, 1⟩] [⟨0, 1⟩]).snd [⟨0, 1⟩] :=
  select_input_preserves_candidates 1 [⟨0, 1⟩] [⟨0, 1⟩] (List.Perm.refl _)

/-- C5 (counterexample): with candidates of balances 3 and 3 and target 5
(within the total balance 6, but with no exact-sum subset), the search
performs 7 invocations of `branch_and_bound`, exceeding the claimed
global bound `min(2^N, i128::MAX) = min(2^2, 2^127 - 1) = 4`: the trial
budget is passed by value, so it is not shared across branches and does
not bound the total number of explorations. -/
theorem select_input_call_count_exceeds_budget :
    select_input_call_count 5 [⟨0, 3⟩, ⟨1, 3⟩] = 7 ∧
    min (2 ^ (2 : Nat)) (2 ^ 127 - 1) < select_input_call_count 5 [⟨0, 3⟩, ⟨1, 3⟩] := by
  refine ⟨by decide, ?_⟩
  rw [show select_input_call_count 5 [⟨0, 3⟩, ⟨1, 3⟩] = 7 by decide]
  norm_num

/-- C5 (amended): the trial budget is held per search path (each
recursive call receives its own decremented copy), so it bounds the depth
of a path rather than the total work; the total number of
`branch_and_bound` invocations performed by `select_input` is bounded by
`2^(N+1) - 1` for `N` candidates. -/
theorem select_input_call_count_le (target : Nat) (available_utxos : List Input) :
    select_input_call_count target available_utxos ≤
      2 ^ (available_utxos.length + 1) - 1 := by
  have key : ∀ (remaining sel : List Input) (eff : Nat) (tries : Int),
      (branch_and_bound target remaining sel eff tries).snd.snd ≤
        2 ^ (remaining.length + 1) - 1 := by
    intro remaining
    induction remaining with
    | nil =>
      intro sel eff tries
      by_cases h1 : target < eff
      · rw [branch_and_bound_overshoot h1]
        simp
      · by_cases h2 : eff = target
        · rw [branch_and_bound_exact h1 h2]
          simp
        · by_cases h3 : tries ≤ 0
          · rw [branch_and_bound_budget h1 h2 h3]
            simp
          · rw [branch_and_bound_nil h1 h2 h3]
            simp
    | cons x rest ih =>
      intro sel eff tries
      have hpow : 2 ^ (rest.length + 1 + 1) = 2 * 2 ^ (rest.length + 1) := by
        rw [pow_succ]
        ring
      have hone : 1 ≤ 2 ^ (rest.length + 1) := Nat.one_le_two_pow
      by_cases h1 : target < eff
      · rw [branch_and_bound_overshoot h1]
        simp only [List.length_cons]
        omega
      · by_cases h2 : eff = target
        · rw [branch_and_bound_exact h1 h2]
          simp only [List.length_cons]
          omega
        · by_cases h3 : tries ≤ 0
          · rw [branch_and_bound_budget h1 h2 h3]
            simp only [List.length_cons]
            omega
          · rw [branch_and_bound_cons h1 h2 h3]
            rcases hrec : branch_and_bound target rest (sel ++ [x])
                (eff + x.balance) (tries - 1) with ⟨b1, sel1, c1⟩
            have hc1 := ih (sel ++ [x]) (eff + x.balance) (tries - 1)
            rw [hrec] at hc1
            simp only [] at hc1
            cases b1 with
            | true =>
              simp only [List.length_cons]
              omega
            | false =>
              have hc2 := ih sel1.dropLast eff (tries - 1)
              simp only [List.length_cons]
              omega
  unfold select_input_call_count
  split
  · exact Nat.zero_le _
  · calc (branch_and_bound target (sortDesc available_utxos) [] 0
          (select_input_tries available_utxos)).snd.snd
        ≤ 2 ^ ((sortDesc available_utxos).length + 1) - 1 :=
          key (sortDesc available_utxos) [] 0 (select_input_tries available_utxos)
      _ = 2 ^ (available_utxos.length + 1) - 1 := by rw [sortDesc_length]

/-- A concrete address used by the spent-status counterexample. -/
def addrSpent : Address := ⟨7, 10, 0, ""⟩

/-- A message with negative value targeting `addrSpent`: by the spec's
external definition, `addrSpent` is therefore spent. -/
def msgSpending : Message :=
  { id := 1, payload := 1, value := -5, incoming := false, broadcasted := true,
    confirmed := some true, address := addrSpent }

/-- An account holding `addrSpent` and the spending message. -/
def acctSpent : Account :=
  { id := .Index 0, signer_type := .Stronghold, index := 0, «alias» := "main",
    created_at := 0, messages := [msgSpending], addresses := [addrSpent],
    client_options := 0, storage_path := 0, has_pending_changes := false }

/-- C3 (code defect, evaluated at the failing input): `addrSpent` is
spent by the spec's own definition (a negative-valued message of the
account targets it), yet `list_addresses true` returns it and
`list_addresses false` omits it — the opposite of the claim. The cause is
`is_unspent` in `address.rs`: it returns the existence of a spending
message, i.e. the spent status, inverting the polarity its name and the
`unspent` flag promise. -/
theorem list_addresses_polarity_inverted :
    (∃ m ∈ acctSpent.messages, m.value < 0 ∧ m.address.address = addrSpent.address)
    ∧ list_addresses acctSpent true = [addrSpent]
    ∧ list_addresses acctSpent false = [] := by decide

/-- C4: with exactly two stored messages of identical payload, no type
filter, `count = 0` and `from = 0`, `list_messages` returns only the
earlier message when it is confirmed (`Some(true)`), and only the later
message otherwise. -/
theorem list_messages_reattachment_collapse (account : Account)
    (m1 m2 : Message) (hmessages : account.messages = [m1, m2])
    (hpayload : m1.payload = m2.payload) :
    list_messages account 0 0 none =
      if m1.confirmed = some true then [m1] else [m2] := by
  rcases hc : m1.confirmed with _ | b
  · simp [list_messages, list_messages_loop, should_push, hmessages, hpayload, hc]
  · cases b <;>
      simp [list_messages, list_messages_loop, should_push, hmessages, hpayload, hc]

/-- The original message of the reattachment pair used by the witness. -/
def msgOriginal : Message :=
  { id := 10, payload := 42, value := 1, incoming := true, broadcasted := true,
    confirmed := some true, address := ⟨3, 0, 1, ""⟩ }

/-- A reattachment of `msgOriginal`: same payload, new id, unconfirmed. -/
def msgReattached : Message :=
  { msgOriginal with id := 11, confirmed := none }

/-- An account whose history is the confirmed original followed by its
reattachment. -/
def acctReatt : Account :=
  { id := .Index 0, signer_type := .Stronghold, index := 0, «alias» := "main",
    created_at := 0, messages := [msgOriginal, msgReattached], addresses := [],
    client_options := 0, storage_path := 0, has_pending_changes := false }

/-- Witness for C4: the confirmed original is kept, the reattachment is
dropped. -/
theorem list_messages_reattachment_collapse_witness :
    list_messages acctReatt 0 0 none = [msgOriginal] := by
  have h := list_messages_reattachment_collapse acctReatt msgOriginal msgReattached
    rfl rfl
  simpa [msgOriginal] using h

/-- The account invariant of the spec: at most one address per
`key_index` (the mapped key indexes are pairwise distinct). -/
def KeyIndexUnique (addresses : List Address) : Prop :=
  (addresses.map Address.key_index).Nodup

/-- Setting an index to the value it already holds leaves a list
unchanged. -/
theorem list_set_eq_self {α : Type} :
    ∀ {l : List α} {i : Nat} {v : α}, l[i]? = some v → l.set i v = l
  | [], _, _, h => by simp at h
  | x :: xs, 0, v, h => by
    simp only [List.getElem?_cons_zero, Option.some.injEq] at h
    simp [h]
  | x :: xs, i + 1, v, h => by
    simp only [List.getElem?_cons_succ] at h
    simp [list_set_eq_self h]

/-- Upserting one address preserves the at-most-one-per-`key_index`
invariant. -/
theorem append_one_key_index_unique (addresses : List Address) (address : Address)
    (h : KeyIndexUnique addresses) :
    KeyIndexUnique (append_one addresses address) := by
  unfold append_one
  rcases hfind : addresses.findIdx? (fun a => addressEq a address) with _ | i
  · rw [List.findIdx?_eq_none_iff] at hfind
    unfold KeyIndexUnique at h ⊢
    rw [List.map_append, List.nodup_append]
    refine ⟨h, List.nodup_singleton _, fun k hk1 hk2 => ?_⟩
    simp only [List.map_cons, List.map_nil, List.mem_singleton] at hk2
    rw [List.mem_map] at hk1
    obtain ⟨a, ha, hak⟩ := hk1
    have hne := hfind a ha
    simp only [addressEq, beq_eq_false_iff_ne, ne_eq] at hne
    exact hne (hak.trans hk2)
  · obtain ⟨hlt, hpi, _⟩ := List.findIdx?_eq_some_iff_getElem.mp hfind
    have hki : (addresses[i]).key_index = address.key_index := by
      simpa [addressEq] using hpi
    have hmap : (addresses.set i address).map Address.key_index =
        addresses.map Address.key_index := by
      rw [List.map_set]
      apply list_set_eq_self
      rw [List.getElem?_map]
      simp [List.getElem?_eq_getElem hlt, hki]
    unfold KeyIndexUnique at h ⊢
    rw [hmap]
    exact h

/-- The invariant is preserved by upserting any batch of addresses. -/
theorem foldl_append_one_key_index_unique :
    ∀ (incoming addresses : List Address), KeyIndexUnique addresses →
      KeyIndexUnique (incoming.foldl append_one addresses)
  | [], _, h => h
  | x :: xs, addresses, h =>
    foldl_append_one_key_index_unique xs _ (append_one_key_index_unique addresses x h)

/-- C6: `append_addresses` upserts by `key_index`: an incoming address
matching an existing entry's `key_index` overwrites that entry in place
(same length, every other position untouched — the result is `set` at the
matched index); an incoming address with a novel `key_index` is appended
at the end; and the at-most-one-address-per-`key_index` invariant is
preserved by every `append_addresses` call. -/
theorem append_addresses_upsert (account : Account) (address : Address)
    (incoming : List Address) :
    ((∃ a ∈ account.addresses, a.key_index = address.key_index) →
      ∃ i a0, account.addresses[i]? = some a0 ∧
        a0.key_index = address.key_index ∧
        (append_addresses account [address]).addresses =
          account.addresses.set i address ∧
        (append_addresses account [address]).addresses.length =
          account.addresses.length)
    ∧ ((∀ a ∈ account.addresses, a.key_index ≠ address.key_index) →
      (append_addresses account [address]).addresses =
        account.addresses ++ [address])
    ∧ (KeyIndexUnique account.addresses →
      KeyIndexUnique (append_addresses account incoming).addresses) := by
  refine ⟨?_, ?_, ?_⟩
  · rintro ⟨a, ha, hk⟩
    have hex : ∃ x ∈ account.addresses, (fun x => addressEq x address) x = true :=
      ⟨a, ha, by simp [addressEq, hk]⟩
    have hfi := List.findIdx?_eq_some_of_exists hex
    obtain ⟨hlt, hpi, _⟩ := List.findIdx?_eq_some_iff_getElem.mp hfi
    refine ⟨_, account.addresses[_], List.getElem?_eq_getElem hlt, ?_, ?_, ?_⟩
    · simpa [addressEq] using hpi
    · simp only [append_addresses, List.foldl_cons, List.foldl_nil, append_one, hfi]
    · simp only [append_addresses, List.foldl_cons, List.foldl_nil, append_one, hfi,
        List.length_set]
  · intro hall
    have hnone : account.addresses.findIdx? (fun x => addressEq x address) = none := by
      rw [List.findIdx?_eq_none_iff]
      intro x hx
      simp only [addressEq, beq_eq_false_iff_ne, ne_eq]
      exact hall x hx
    simp only [append_addresses, List.foldl_cons, List.foldl_nil, append_one, hnone]
  · intro hinv
    exact foldl_append_one_key_index_unique incoming account.addresses hinv

/-- First address of the upsert witness (key index 0). -/
def addrFirst : Address := ⟨100, 5, 0, ""⟩

/-- Replacement address of the upsert witness: same key index 0, new
balance and on-chain value. -/
def addrReplacement : Address := ⟨101, 9, 0, ""⟩

/-- The account holding only `addrFirst`. -/
def acctUpsert : Account :=
  { id := .Index 0, signer_type := .Stronghold, index := 0, «alias» := "main",
    created_at := 0, messages := [], addresses := [addrFirst],
    client_options := 0, storage_path := 0, has_pending_changes := false }

/-- Witness for C6: appending `addrReplacement` replaces `addrFirst` in
place without changing the collection's length. -/
theorem append_addresses_upsert_witness :
    ∃ i a0, acctUpsert.addresses[i]? = some a0 ∧
      a0.key_index = addrReplacement.key_index ∧
      (append_addresses acctUpsert [addrReplacement]).addresses =
        acctUpsert.addresses.set i addrReplacement ∧
      (append_addresses acctUpsert [addrReplacement]).addresses.length =
        acctUpsert.addresses.length :=
  (append_addresses_upsert acctUpsert addrReplacement []).1
    ⟨addrFirst, by decide, by decide⟩

/-- An account with an empty message history (the failing input of the
monitor lookup claim). -/
def acctNoMessages : Account :=
  { id := .Index 0, signer_type := .Stronghold, index := 0, «alias» := "main",
    created_at := 0, messages := [], addresses := [], client_options := 0,
    storage_path := 0, has_pending_changes := false }

/-- C7 (code defect, evaluated at the failing input): calling
`monitor_confirmation_state_change` with a message id that has no match
in the account history aborts (the `unwrap` of the failed `find`)
instead of surfacing a `NotFound`-style error to the caller. -/
theorem monitor_confirmation_state_change_panics_on_miss :
    monitor_confirmation_state_change acctNoMessages 0 = .panicked := by decide

/-- C8: an emission invokes exactly the listeners registered for the
emitted kind — each exactly once, in registration order, with the emitted
account id and message id — and no listener registered for another kind:
the invocation trace is the in-order filter of the registry by kind, each
entry paired with the emitted event. -/
theorem emit_transaction_event_matching (event_type : TransactionEventType)
    (account_id message_id : Nat) (listeners : List TransactionEventHandler) :
    emit_transaction_event event_type account_id message_id listeners =
      (listeners.filter fun l => l.event_type == event_type).map
        fun l => (l.callback, ⟨account_id, message_id⟩) := by
  have key : ∀ (ls : List TransactionEventHandler)
      (acc : List (Nat × TransactionEvent)),
      ls.foldl
        (fun invoked listener =>
          if listener.event_type = event_type then
            invoked ++ [(listener.callback, ⟨account_id, message_id⟩)]
          else invoked)
        acc =
        acc ++ (ls.filter fun l => l.event_type == event_type).map
          (fun l => (l.callback, (⟨account_id, message_id⟩ : TransactionEvent))) := by
    intro ls
    induction ls with
    | nil =>
      intro acc
      simp
    | cons x xs ih =>
      intro acc
      simp only [List.foldl_cons, List.filter_cons]
      by_cases hx : x.event_type = event_type
      · rw [if_pos hx]
        have hbeq : (x.event_type == event_type) = true := by simp [hx]
        rw [hbeq]
        simp only [if_true, List.map_cons]
        rw [ih]
        simp
      · rw [if_neg hx]
        have hbeq : (x.event_type == event_type) = false := by simp [hx]
        rw [hbeq]
        simp only [Bool.false_eq_true, if_false]
        exact ih acc
  simpa [emit_transaction_event] using key listeners []

/-- The single stored account of the initialiser witness: no messages, no
addresses, hence zero total balance. -/
def emptyStoredAccount : Account :=
  { id := .Index 0, signer_type := .Stronghold, index := 0, «alias» := "first",
    created_at := 0, messages := [], addresses := [], client_options := 0,
    storage_path := 0, has_pending_changes := false }

/-- The stored account list of the initialiser witness. -/
def initEmptyStored : List Account := [emptyStoredAccount]

/-- The initialiser configuration of the witness: persistence on, default
signer type. -/
def initSelf : AccountInitialiser :=
  { mnemonic := none, «alias» := none, created_at := none, messages := [],
    addresses := [], client_options := 0, skip_persistance := false,
    signer_type := some .Stronghold }

/-- C10: when persistence is not skipped (and a signer type is present,
as the builder's default provides), if the most recently stored account
record has an empty message history and a total balance of zero,
`initialise` fails with `LatestAccountIsEmpty` and leaves the stored
account list unchanged — no new account is persisted. -/
theorem initialise_latest_account_is_empty (stored : List Account)
    (init_account : Account → Option String → Except WalletError String)
    (now : Nat) (self : AccountInitialiser) (st : SignerType) (latest : Account)
    (hsigner : self.signer_type = some st)
    (hskip : self.skip_persistance = false)
    (hlast : stored.getLast? = some latest)
    (hmessages : latest.messages = [])
    (hbalance : total_balance latest = 0) :
    initialise stored init_account now self =
      (.error .LatestAccountIsEmpty, stored) := by
  simp only [initialise, hsigner]
  simp [hskip, hlast, hmessages, hbalance]

/-- Witness for C10: a concrete empty latest account makes `initialise`
fail with `LatestAccountIsEmpty` and keeps the storage unchanged. -/
theorem initialise_latest_account_is_empty_witness :
    initialise initEmptyStored (fun _ _ => .ok "record-id") 0 initSelf =
      (.error .LatestAccountIsEmpty, initEmptyStored) :=
  initialise_latest_account_is_empty initEmptyStored (fun _ _ => .ok "record-id") 0
    initSelf .Stronghold emptyStoredAccount rfl rfl rfl rfl rfl
